import Mathlib

/-!
Shallow embedding of the path-rewriting engine, quiver invariants and
Auslander-Reiten quiver builder of src/ar.py, together with proofs of the
specified properties.

Modelling conventions:
 - machine integers are Nat and Int (Python integers are unbounded);
 - fallible or possibly non-terminating loops take explicit fuel and
   return Option; a result of none means the fuel was exhausted;
 - the node iteration order of the multigraph is the insertion order;
 - the relation mapping is an ordered association list, matching one fixed
   iteration order of the Python dict;
 - successors of a vertex are the edge targets in first-occurrence order,
   as produced by the adjacency structure of the graph library.
-/

namespace AR

/-- Monadic map over Option, written as plain recursion so that proofs can
proceed by structural induction; models a Python list comprehension whose
body may fail to terminate. -/
def mapO {α β : Type _} (f : α → Option β) : List α → Option (List β)
  | [] => some []
  | a :: l =>
    match f a, mapO f l with
    | some b, some bs => some (b :: bs)
    | _, _ => none

/-- Monadic fold over Option, written as plain recursion. -/
def foldO {σ α : Type _} (f : σ → α → Option σ) : σ → List α → Option σ
  | st, [] => some st
  | st, a :: l =>
    match f st a with
    | some st2 => foldO f st2 l
    | none => none

/-- Position of the last occurrence of an element in a list, if any.
Used to model the skip dictionary of findsublist: later insertions for the
same key overwrite earlier ones. -/
def lastIdx {α : Type _} [DecidableEq α] : List α → α → Option Nat
  | [], _ => none
  | a :: l, c =>
    match lastIdx l c with
    | some k => some (k + 1)
    | none => if c = a then some 0 else none

/-- Lookup in the skip table of findsublist.  The Python code builds
skip from needle positions 0 .. n-2 with value n-i-1 (last write wins) and
falls back to n; this equals n-1-j for the last occurrence j of the key in
the first n-1 needle entries, and n when the key is absent. -/
def skipGet {α : Type _} [DecidableEq α] (needle : List α) (c : α) : Nat :=
  match lastIdx (needle.take (needle.length - 1)) c with
  | some j => needle.length - 1 - j
  | none => needle.length

/-- The scanning loop of findsublist (Boyer-Moore-Horspool).  The loop
variable i is the right end of the current window; the Python inner loop
compares the window with the needle from the right and is abstracted as an
equality test on the slice, since the skip amount depends only on the
haystack entry at i.  The loop runs while i < haystack length, and each
iteration advances i by at least one, so fuel (haystack length + 1) can
never run out when starting from needle length - 1; the fuel-exhausted
branch returns the not-found sentinel. -/
def bmhLoop {α : Type _} [DecidableEq α] (haystack needle : List α) :
    Nat → Nat → Int
  | 0, _ => -1
  | fuel + 1, i =>
    if h : i < haystack.length then
      if (haystack.drop (i + 1 - needle.length)).take needle.length = needle then
        ((i + 1 - needle.length : Nat) : Int)
      else
        bmhLoop haystack needle fuel (i + skipGet needle (haystack.get ⟨i, h⟩))
    else -1

/-- Embedding of findsublist from src/ar.py: Boyer-Moore-Horspool search
of needle inside haystack, returning the start position of a match or -1.
For an empty needle the Python loop returns 0 on its first iteration
(i = -1 is below the haystack length and the inner loop is empty). -/
def findsublist {α : Type _} [DecidableEq α] (haystack needle : List α) : Int :=
  if needle.length = 0 then 0
  else bmhLoop haystack needle (haystack.length + 1) (needle.length - 1)

/-- The needle occurs in the haystack starting at position q. -/
def occursAt {α : Type _} [DecidableEq α] (haystack needle : List α) (q : Nat) : Prop :=
  q + needle.length ≤ haystack.length ∧
    (haystack.drop q).take needle.length = needle

instance {α : Type _} [DecidableEq α] (haystack needle : List α) (q : Nat) :
    Decidable (occursAt haystack needle q) := by
  unfold occursAt
  infer_instance

/-- One relation test of the applyRelations pass.  The state is the current
path together with the flag recording whether some relation matched during
this pass (Python: stop is the negation of this flag).  On a match the code
rebuilds the path as the replacement followed by the tail of the original
argument p (not of the current path) and keeps no prefix; this mirrors
line 68 of src/ar.py exactly. -/
def relStep {α : Type _} [DecidableEq α] (p : List α) (st : List α × Bool)
    (r : List α × List α) : List α × Bool :=
  let pos := findsublist st.1 r.1
  if 0 ≤ pos then (r.2 ++ p.drop (pos.toNat + r.1.length), true) else st

/-- One full pass of applyRelations over the stored relations. -/
def relPass {α : Type _} [DecidableEq α] (rels : List (List α × List α))
    (p ret : List α) : List α × Bool :=
  List.foldl (relStep p) (ret, false) rels

/-- The while loop of applyRelations, with fuel: repeat passes until a pass
reports no match, then return the current path. -/
def applyRelationsAux {α : Type _} [DecidableEq α]
    (rels : List (List α × List α)) (p : List α) : Nat → List α → Option (List α)
  | 0, _ => none
  | fuel + 1, ret =>
    let st := relPass rels p ret
    if st.2 then applyRelationsAux rels p fuel st.1 else some st.1

/-- Embedding of Quiver.applyRelations from src/ar.py, parameterised by the
stored relation list. -/
def applyRelations {α : Type _} [DecidableEq α]
    (rels : List (List α × List α)) (p : List α) (fuel : Nat) : Option (List α) :=
  applyRelationsAux rels p fuel p

/-- Keep the first occurrence of every element not in the accumulator,
dropping later duplicates. -/
def firstDedupAux {α : Type _} [DecidableEq α] (seen : List α) : List α → List α
  | [] => []
  | a :: l =>
    if a ∈ seen then firstDedupAux seen l
    else a :: firstDedupAux (seen ++ [a]) l

/-- Keep the first occurrence of every element, dropping later duplicates;
only the length and membership of the result are consumed downstream, so
this is an adequate model of building a Python set and listing it. -/
def firstDedup {α : Type _} [DecidableEq α] (l : List α) : List α :=
  firstDedupAux [] l

/-- Directed multigraph with remembered node insertion order; edges keep
multiplicity. -/
structure Graph (V : Type _) where
  nodes : List V
  edges : List (V × V)
deriving DecidableEq

/-- Insert a node if absent (networkx add_node). -/
def Graph.addNode {V : Type _} [DecidableEq V] (g : Graph V) (v : V) : Graph V :=
  if v ∈ g.nodes then g else ⟨g.nodes ++ [v], g.edges⟩

/-- Insert the endpoints if absent and append a directed edge
(networkx add_edge on a multi-digraph). -/
def Graph.addEdge {V : Type _} [DecidableEq V] (g : Graph V) (u v : V) : Graph V :=
  ⟨((g.addNode u).addNode v).nodes, g.edges ++ [(u, v)]⟩

/-- Distinct successors of a vertex, in first-occurrence order. -/
def Graph.successors {V : Type _} [DecidableEq V] (g : Graph V) (v : V) : List V :=
  firstDedup ((g.edges.filter (fun e => decide (e.1 = v))).map Prod.snd)

/-- Remove a node and the incident edges; networkx remove_node raises
NetworkXError when the node is absent, modelled by none. -/
def Graph.removeNode {V : Type _} [DecidableEq V] (g : Graph V) (v : V) :
    Option (Graph V) :=
  if v ∈ g.nodes then
    some ⟨g.nodes.filter (fun x => decide (x ≠ v)),
          g.edges.filter (fun e => decide (e.1 ≠ v) && decide (e.2 ≠ v))⟩
  else none

/-- Embedding of the Quiver class of src/ar.py: a multigraph together with
the stored rewriting relations and the commutativity flag. -/
structure Quiver (V : Type _) extends Graph V where
  rel : List (List V × List V)
  comm : Bool
deriving DecidableEq

/-- Update an association list at a key, appending when the key is new;
models dict assignment in add_relation. -/
def updateRel {V : Type _} [DecidableEq V] :
    List (List V × List V) → List V → List V → List (List V × List V)
  | [], p0, p1 => [(p0, p1)]
  | r :: rest, p0, p1 =>
    if r.1 = p0 then (p0, p1) :: rest else r :: updateRel rest p0 p1

/-- Embedding of Quiver.add_relation. -/
def add_relation {V : Type _} [DecidableEq V] (q : Quiver V) (p0 p1 : List V) :
    Quiver V :=
  { q with rel := updateRel q.rel p0 p1 }

/-- Embedding of Quiver.listPaths: all directed walks from s to t listed
recursively through the successor structure (so parallel edges are not
distinguished); the recursion terminates only on suitable graphs, hence the
fuel. -/
def listPaths {V : Type _} [DecidableEq V] (g : Graph V) :
    Nat → V → V → Option (List (List V))
  | 0, _, _ => none
  | fuel + 1, s, t =>
    if s = t then some [[t]]
    else
      match mapO (fun u => listPaths g fuel u t) (g.successors s) with
      | some groups => some (groups.map (fun ps => ps.map (fun pth => s :: pth))).flatten
      | none => none

/-- Embedding of Quiver.listReducedPaths: normal forms of all paths from
s to t, as a duplicate-free list (the Python code builds a set). -/
def listReducedPaths {V : Type _} [DecidableEq V] (q : Quiver V) (fuel : Nat)
    (s t : V) : Option (List (List V)) :=
  match listPaths q.toGraph fuel s t with
  | none => none
  | some ps =>
    match mapO (fun pth => applyRelations q.rel pth fuel) ps with
    | none => none
    | some red => some (firstDedup red)

/-- Embedding of Quiver.countReducedPaths: the number of reduced paths,
collapsed to 0 or 1 when the commutativity flag is set. -/
def countReducedPaths {V : Type _} [DecidableEq V] (q : Quiver V) (fuel : Nat)
    (s t : V) : Option Nat :=
  match listReducedPaths q fuel s t with
  | none => none
  | some red => some (if q.comm then (if red.length = 0 then 0 else 1) else red.length)

/-- First index of an element in a list (Python list.index); callers only
use it on members. -/
def idx {V : Type _} [DecidableEq V] (v : V) : List V → Nat
  | [] => 0
  | a :: l => if a = v then 0 else idx v l + 1

/-- Embedding of Quiver.proj_indecomp: reduced path counts from v to every
node, in node order, as an integer vector. -/
def proj_indecomp {V : Type _} [DecidableEq V] (q : Quiver V) (fuel : Nat)
    (v : V) : Option (List Int) :=
  match mapO (fun w => countReducedPaths q fuel v w) q.nodes with
  | some cs => some (cs.map (fun n => Int.ofNat n))
  | none => none

/-- Embedding of Quiver.inj_indecomp: reduced path counts into v. -/
def inj_indecomp {V : Type _} [DecidableEq V] (q : Quiver V) (fuel : Nat)
    (v : V) : Option (List Int) :=
  match mapO (fun w => countReducedPaths q fuel w v) q.nodes with
  | some cs => some (cs.map (fun n => Int.ofNat n))
  | none => none

/-- Embedding of Quiver.radical_proj: the projective indecomposable of v
with the v-th component zeroed. -/
def radical_proj {V : Type _} [DecidableEq V] (q : Quiver V) (fuel : Nat)
    (v : V) : Option (List Int) :=
  match proj_indecomp q fuel v with
  | some pr => some (pr.set (idx v q.nodes) 0)
  | none => none

/-- Embedding of Quiver.isSimple: component sum one and exactly one
non-zero component. -/
def isSimple (m : List Int) : Prop :=
  m.sum = 1 ∧ (m.filter (fun x => decide (x ≠ 0))).length = 1

instance (m : List Int) : Decidable (isSimple m) := by
  unfold isSimple
  infer_instance

/-- Embedding of Quiver.zeros: the zero dimension vector. -/
def zeros {V : Type _} [DecidableEq V] (q : Quiver V) : List Int :=
  q.nodes.map (fun _ => (0 : Int))

/-- All components of a dimension vector are non-negative. -/
def VNonneg (m : List Int) : Prop := ∀ x ∈ m, 0 ≤ x

instance (m : List Int) : Decidable (VNonneg m) := by
  unfold VNonneg
  infer_instance

/-- All dimension vectors of a worklist state are componentwise
non-negative: every node, both endpoints of every edge, and every queued
vector. -/
def stateNonneg (st : Graph (List Int) × List (List Int)) : Prop :=
  (∀ v ∈ st.1.nodes, VNonneg v) ∧
    (∀ e ∈ st.1.edges, VNonneg e.1 ∧ VNonneg e.2) ∧
    (∀ v ∈ st.2, VNonneg v)

/-- The candidate vector of the worklist phase: per component, the sum over
the successor vectors minus the dequeued vector. -/
def wvec (ss : List (List Int)) (p : List Int) : List Int :=
  (List.range p.length).map
    (fun j => (ss.map (fun s => s.getD j 0)).sum - p.getD j 0)

/-- Body of the for loop over successors in arQuiver: add an edge from the
successor to the candidate vector and enqueue the successor when it is not
already queued. -/
def arAdd (w : List Int) (st : Graph (List Int) × List (List Int))
    (s : List Int) : Graph (List Int) × List (List Int) :=
  (st.1.addEdge s w, if s ∈ st.2 then st.2 else st.2 ++ [s])

/-- One iteration of the worklist loop of arQuiver, acting on the dequeued
vector p and the rest of the queue; inl is the continuing state, inr is the
immediate return of the rule for representation-infinite type. -/
def arStep (injs : List (List Int)) (ar : Graph (List Int)) (p : List Int)
    (rest : List (List Int)) :
    Sum (Graph (List Int) × List (List Int)) (Graph (List Int)) :=
  if isSimple p ∧ p ∈ injs then Sum.inl (ar, rest)
  else
    let ss := ar.successors p
    let w := wvec ss p
    if w.any (fun x => decide (x < 0)) then Sum.inl (ar, rest)
    else if w.any (fun x => decide (7 ≤ x)) then Sum.inr ar
    else Sum.inl (ss.foldl (arAdd w) (ar, rest))

/-- The worklist loop of arQuiver, with fuel. -/
def arLoop (injs : List (List Int)) :
    Nat → Graph (List Int) → List (List Int) → Option (Graph (List Int))
  | 0, _, _ => none
  | fuel + 1, ar, todo =>
    match todo with
    | [] => some ar
    | p :: rest =>
      match arStep injs ar p rest with
      | Sum.inl st => arLoop injs fuel st.1 st.2
      | Sum.inr g => some g

/-- The state of the worklist loop after k continuing iterations; none when
the loop stopped earlier (empty queue or immediate return). -/
def arIter (injs : List (List Int)) :
    Nat → Graph (List Int) × List (List Int) →
    Option (Graph (List Int) × List (List Int))
  | 0, st => some st
  | k + 1, st =>
    match st.2 with
    | [] => none
    | p :: rest =>
      match arStep injs st.1 p rest with
      | Sum.inl st2 => arIter injs k st2
      | Sum.inr _ => none

/-- One step of the seed phase of arQuiver: add the edge from the radical
to the projective, add the injective as a node, and enqueue simple
projectives. -/
def seedStep {V : Type _} [DecidableEq V] (q : Quiver V) (fuel : Nat)
    (st : Graph (List Int) × List (List Int)) (v : V) :
    Option (Graph (List Int) × List (List Int)) :=
  match radical_proj q fuel v, proj_indecomp q fuel v, inj_indecomp q fuel v with
  | some r, some pr, some i =>
    some ((st.1.addEdge r pr).addNode i,
      if isSimple pr then st.2 ++ [pr] else st.2)
  | _, _, _ => none

/-- The seed phase of arQuiver over all nodes of the source quiver. -/
def seed {V : Type _} [DecidableEq V] (q : Quiver V) (fuel : Nat) :
    Option (Graph (List Int) × List (List Int)) :=
  foldO (seedStep q fuel) (⟨[], []⟩, []) q.nodes

/-- Result of arQuiver: the finished graph (normal termination or the
early return on representation-infinite type), the error raised when
removing the zero vector that is not a node, or fuel exhaustion standing
for non-termination. -/
inductive ArOut
  | graph (g : Graph (List Int))
  | removeError
  | outOfFuel
deriving DecidableEq

/-- Embedding of arQuiver from src/ar.py.  The injective cache is computed
up front: the Python code populates it at the first rule-A test, from the
same pure per-vertex computations already done during seeding. -/
def arQuiver {V : Type _} [DecidableEq V] (q : Quiver V) (fuel : Nat) : ArOut :=
  match seed q fuel with
  | none => ArOut.outOfFuel
  | some (ar0, todo0) =>
    match ar0.removeNode (zeros q) with
    | none => ArOut.removeError
    | some ar1 =>
      match mapO (fun v => inj_indecomp q fuel v) q.nodes with
      | none => ArOut.outOfFuel
      | some injs =>
        match arLoop injs fuel ar1 todo0 with
        | none => ArOut.outOfFuel
        | some g => ArOut.graph g

/-- A directed walk in the graph recorded as the visited vertex sequence:
nonempty, from s to t, with every consecutive pair an edge. -/
def isWalk {V : Type _} [DecidableEq V] (g : Graph V) (l : List V) (s t : V) : Prop :=
  l.head? = some s ∧ l.getLast? = some t ∧
    List.Chain' (fun a b => (a, b) ∈ g.edges) l

/-- The graph has no non-trivial closed walk. -/
def acyclicG {V : Type _} [DecidableEq V] (g : Graph V) : Prop :=
  ∀ (l : List V) (s : V), isWalk g l s s → l = [s]

/-- Modelled from the spec: the number of directed walks from s to t
counted as in a multigraph, parallel edges giving distinct walks.  This is
the comparison definition for the refinement claim about path counting; it
follows the words of the specification, not the code. -/
def specWalkCount {V : Type _} [DecidableEq V] (g : Graph V) :
    Nat → V → V → Option Nat
  | 0, _, _ => none
  | fuel + 1, s, t =>
    if s = t then some 1
    else
      match mapO (fun e => specWalkCount g fuel e.2 t)
          (g.edges.filter (fun e => decide (e.1 = s))) with
      | some cs => some cs.sum
      | none => none

end AR


namespace AR

theorem lastIdx_lt_length {α : Type _} [DecidableEq α] {l : List α} {c : α} {j : Nat}
    (h : lastIdx l c = some j) : j < l.length := by
  induction l generalizing j with
  | nil => simp [lastIdx] at h
  | cons a l ih =>
    rw [lastIdx] at h
    cases hl : lastIdx l c with
    | some k =>
      rw [hl] at h
      injection h with h
      subst h
      exact Nat.succ_lt_succ (ih hl)
    | none =>
      rw [hl] at h
      by_cases hc : c = a
      · rw [if_pos hc] at h
        injection h with h
        subst h
        simp
      · rw [if_neg hc] at h
        exact absurd h (by simp)

theorem lastIdx_ge {α : Type _} [DecidableEq α] {l : List α} {c : α} {m : Nat}
    (hm : m < l.length) (hc : l.get ⟨m, hm⟩ = c) :
    ∃ j, lastIdx l c = some j ∧ m ≤ j := by
  induction l generalizing m with
  | nil => simp at hm
  | cons a l ih =>
    cases m with
    | zero =>
      cases hl : lastIdx l c with
      | some k =>
        refine ⟨k + 1, ?_, Nat.zero_le _⟩
        rw [lastIdx, hl]
      | none =>
        refine ⟨0, ?_, Nat.le_refl 0⟩
        rw [lastIdx, hl, if_pos]
        simpa using hc.symm
    | succ m2 =>
      have hm2 : m2 < l.length := Nat.lt_of_succ_lt_succ hm
      obtain ⟨j, hj, hmj⟩ := ih hm2 (by simpa using hc)
      refine ⟨j + 1, ?_, Nat.succ_le_succ hmj⟩
      rw [lastIdx, hj]

theorem skipGet_eq_some {α : Type _} [DecidableEq α] {nd : List α} {c : α} {j : Nat}
    (hl : lastIdx (nd.take (nd.length - 1)) c = some j) :
    skipGet nd c = nd.length - 1 - j := by
  unfold skipGet
  rw [hl]

theorem skipGet_eq_none {α : Type _} [DecidableEq α] {nd : List α} {c : α}
    (hl : lastIdx (nd.take (nd.length - 1)) c = none) :
    skipGet nd c = nd.length := by
  unfold skipGet
  rw [hl]

theorem skipGet_pos {α : Type _} [DecidableEq α] {nd : List α} (h : nd ≠ []) (c : α) :
    1 ≤ skipGet nd c := by
  have hn : 0 < nd.length := List.length_pos.mpr h
  cases hl : lastIdx (nd.take (nd.length - 1)) c with
  | none => rw [skipGet_eq_none hl]; exact hn
  | some j =>
    have hj := lastIdx_lt_length hl
    rw [List.length_take] at hj
    rw [skipGet_eq_some hl]
    omega

theorem skipGet_le {α : Type _} [DecidableEq α] (nd : List α) (c : α) :
    skipGet nd c ≤ nd.length := by
  cases hl : lastIdx (nd.take (nd.length - 1)) c with
  | none => rw [skipGet_eq_none hl]
  | some j => rw [skipGet_eq_some hl]; omega

theorem skipGet_le_of_get {α : Type _} [DecidableEq α] {nd : List α} {m : Nat} {c : α}
    (hm : m < nd.length - 1) (hmn : m < nd.length) (hc : nd.get ⟨m, hmn⟩ = c) :
    skipGet nd c ≤ nd.length - 1 - m := by
  have htake : m < (nd.take (nd.length - 1)).length := by
    rw [List.length_take]
    omega
  have hc2 : (nd.take (nd.length - 1)).get ⟨m, htake⟩ = c := by
    rw [List.get_eq_getElem, List.getElem_take]
    rw [List.get_eq_getElem] at hc
    exact hc
  obtain ⟨j, hj, hmj⟩ := lastIdx_ge htake hc2
  rw [skipGet_eq_some hj]
  omega

theorem occursAt_of_slice {α : Type _} [DecidableEq α] {hay nd : List α} {q : Nat}
    (hne : nd ≠ []) (h : (hay.drop q).take nd.length = nd) : occursAt hay nd q := by
  refine ⟨?_, h⟩
  have hlen := congrArg List.length h
  rw [List.length_take, List.length_drop] at hlen
  have hpos : 0 < nd.length := List.length_pos.mpr hne
  omega

theorem occursAt_get {α : Type _} [DecidableEq α] {hay nd : List α} {q i : Nat}
    (ho : occursAt hay nd q) (h1 : q ≤ i) (h2 : i - q < nd.length) (hi : i < hay.length) :
    nd.get ⟨i - q, h2⟩ = hay.get ⟨i, hi⟩ := by
  obtain ⟨hb, hs⟩ := ho
  have h5 : nd[i - q]? = hay[i]? := by
    conv_lhs => rw [← hs]
    rw [List.getElem?_take, if_pos h2, List.getElem?_drop]
    congr 1
    omega
  rw [List.getElem?_eq_getElem h2, List.getElem?_eq_getElem hi] at h5
  rw [List.get_eq_getElem, List.get_eq_getElem]
  exact Option.some.inj h5

theorem bmhLoop_nonneg_or {α : Type _} [DecidableEq α] (hay nd : List α) :
    ∀ fuel i, bmhLoop hay nd fuel i = -1 ∨ 0 ≤ bmhLoop hay nd fuel i := by
  intro fuel
  induction fuel with
  | zero => intro i; left; rfl
  | succ fuel ih =>
    intro i
    rw [bmhLoop]
    by_cases hi : i < hay.length
    · rw [dif_pos hi]
      by_cases hs : (hay.drop (i + 1 - nd.length)).take nd.length = nd
      · rw [if_pos hs]
        right
        exact Int.ofNat_nonneg _
      · rw [if_neg hs]
        exact ih _
    · rw [dif_neg hi]
      left
      rfl

theorem bmh_sound {α : Type _} [DecidableEq α] {hay nd : List α} (hne : nd ≠ []) :
    ∀ fuel i, ∀ k : Int, bmhLoop hay nd fuel i = k → 0 ≤ k →
      occursAt hay nd k.toNat := by
  intro fuel
  induction fuel with
  | zero =>
    intro i k hk h0
    rw [bmhLoop] at hk
    subst hk
    norm_num at h0
  | succ fuel ih =>
    intro i k hk h0
    rw [bmhLoop] at hk
    by_cases hi : i < hay.length
    · rw [dif_pos hi] at hk
      by_cases hs : (hay.drop (i + 1 - nd.length)).take nd.length = nd
      · rw [if_pos hs] at hk
        subst hk
        rw [Int.toNat_ofNat]
        exact occursAt_of_slice hne hs
      · rw [if_neg hs] at hk
        exact ih _ k hk h0
    · rw [dif_neg hi] at hk
      subst hk
      norm_num at h0

theorem bmh_complete {α : Type _} [DecidableEq α] {hay nd : List α} (hne : nd ≠ []) :
    ∀ fuel i, hay.length < i + fuel →
      (∀ q, occursAt hay nd q → i ≤ q + (nd.length - 1)) →
      bmhLoop hay nd fuel i = -1 → ∀ q, ¬ occursAt hay nd q := by
  have hnpos : 0 < nd.length := List.length_pos.mpr hne
  intro fuel
  induction fuel with
  | zero =>
    intro i hfi inv _ q hq
    have h1 := inv q hq
    have h2 := hq.1
    omega
  | succ fuel ih =>
    intro i hfi inv hloop q hq
    rw [bmhLoop] at hloop
    by_cases hi : i < hay.length
    · rw [dif_pos hi] at hloop
      by_cases hs : (hay.drop (i + 1 - nd.length)).take nd.length = nd
      · rw [if_pos hs] at hloop
        exact absurd hloop (by omega)
      · rw [if_neg hs] at hloop
        have hskip1 : 1 ≤ skipGet nd (hay.get ⟨i, hi⟩) := skipGet_pos hne _
        refine ih (i + skipGet nd (hay.get ⟨i, hi⟩)) (by omega) ?_ hloop q hq
        intro q2 hq2
        have hle := inv q2 hq2
        by_cases heq : i = q2 + (nd.length - 1)
        · exfalso
          apply hs
          have : i + 1 - nd.length = q2 := by omega
          rw [this]
          exact hq2.2
        · have hlt : i < q2 + (nd.length - 1) := by omega
          by_cases hqi : q2 ≤ i
          · have hm : i - q2 < nd.length - 1 := by omega
            have hmn : i - q2 < nd.length := by omega
            have hcc := occursAt_get hq2 hqi hmn hi
            have := skipGet_le_of_get hm hmn hcc
            omega
          · have := skipGet_le nd (hay.get ⟨i, hi⟩)
            omega
    · rw [dif_neg hi] at hloop
      have h2 := hq.1
      have h3 := inv q hq
      omega

theorem findsublist_found {α : Type _} [DecidableEq α] {hay nd : List α}
    (hne : nd ≠ []) {k : Int} (hk : findsublist hay nd = k) (h0 : 0 ≤ k) :
    occursAt hay nd k.toNat := by
  have hn : ¬ nd.length = 0 := by
    simpa [List.length_eq_zero] using hne
  rw [findsublist, if_neg hn] at hk
  exact bmh_sound hne _ _ k hk h0

theorem findsublist_not_found {α : Type _} [DecidableEq α] {hay nd : List α}
    (hne : nd ≠ []) (hk : findsublist hay nd = -1) :
    ∀ q, ¬ occursAt hay nd q := by
  have hn : ¬ nd.length = 0 := by
    simpa [List.length_eq_zero] using hne
  intro q
  rw [findsublist, if_neg hn] at hk
  have hnpos : 0 < nd.length := List.length_pos.mpr hne
  exact bmh_complete hne _ _ (by omega) (fun q2 _ => by omega) hk q

/-- C7: for every haystack and non-empty needle, findsublist returns a
non-negative position only when the needle occurs there, and returns the
sentinel -1 only when the needle occurs nowhere in the haystack. -/
theorem findsublist_correct {α : Type _} [DecidableEq α] (hay nd : List α)
    (hne : nd ≠ []) :
    (∀ k : Int, findsublist hay nd = k → 0 ≤ k → occursAt hay nd k.toNat) ∧
      (findsublist hay nd = -1 → ∀ q, ¬ occursAt hay nd q) :=
  ⟨fun _ hk h0 => findsublist_found hne hk h0,
    fun hk => findsublist_not_found hne hk⟩

/-- Witness for the findsublist correctness theorem at a concrete input. -/
theorem findsublist_correct_witness : occursAt ([0, 1] : List ℕ) [1] 1 :=
  (findsublist_correct [0, 1] [1] (by decide)).1 1 (by decide) (by decide)

end AR

namespace AR

theorem foldl_relStep_true {α : Type _} [DecidableEq α]
    (p : List α) (rels : List (List α × List α)) :
    ∀ st : List α × Bool, st.2 = true →
      (List.foldl (relStep p) st rels).2 = true := by
  induction rels with
  | nil => intro st h; exact h
  | cons r rest ih =>
    intro st h
    rw [List.foldl]
    apply ih
    rw [relStep]
    by_cases hpos : 0 ≤ findsublist st.1 r.1
    · rw [if_pos hpos]
    · rw [if_neg hpos]; exact h

theorem relStep_of_neg {α : Type _} [DecidableEq α] {ret : List α}
    {r : List α × List α} (p : List α) (flag : Bool)
    (h : findsublist ret r.1 < 0) : relStep p (ret, flag) r = (ret, flag) := by
  simp only [relStep]
  rw [if_neg (by omega)]

theorem relPass_false {α : Type _} [DecidableEq α]
    {rels : List (List α × List α)} {p ret ret2 : List α}
    (h : relPass rels p ret = (ret2, false)) :
    ret2 = ret ∧ ∀ r ∈ rels, findsublist ret r.1 < 0 := by
  unfold relPass at h
  induction rels generalizing ret with
  | nil =>
    rw [List.foldl] at h
    injection h with h1 h2
    exact ⟨h1.symm, by simp⟩
  | cons r rest ih =>
    rw [List.foldl] at h
    by_cases hpos : 0 ≤ findsublist ret r.1
    · exfalso
      have hstep : relStep p (ret, false) r =
          (r.2 ++ p.drop ((findsublist ret r.1).toNat + r.1.length), true) := by
        simp only [relStep]
        rw [if_pos hpos]
      rw [hstep] at h
      have ht := foldl_relStep_true p rest
        (r.2 ++ p.drop ((findsublist ret r.1).toNat + r.1.length), true) rfl
      rw [h] at ht
      exact Bool.false_ne_true ht
    · rw [relStep_of_neg p false (by omega)] at h
      obtain ⟨h1, h2⟩ := ih h
      refine ⟨h1, ?_⟩
      intro r2 hr2
      rcases List.mem_cons.mp hr2 with hr2 | hr2
      · subst hr2; omega
      · exact h2 r2 hr2

theorem relPass_of_noMatch {α : Type _} [DecidableEq α]
    {rels : List (List α × List α)} {ret : List α} (p : List α)
    (h : ∀ r ∈ rels, findsublist ret r.1 < 0) :
    relPass rels p ret = (ret, false) := by
  unfold relPass
  induction rels with
  | nil => rfl
  | cons r rest ih =>
    rw [List.foldl, relStep_of_neg p false (h r (List.mem_cons_self r rest))]
    exact ih (fun r2 hr2 => h r2 (List.mem_cons_of_mem r hr2))

theorem applyRelationsAux_of_noMatch {α : Type _} [DecidableEq α]
    {rels : List (List α × List α)} {ret : List α} (p : List α) (fuel : Nat)
    (h : ∀ r ∈ rels, findsublist ret r.1 < 0) :
    applyRelationsAux rels p (fuel + 1) ret = some ret := by
  rw [applyRelationsAux]
  rw [relPass_of_noMatch p h]
  rfl

theorem applyRelations_noMatchResult {α : Type _} [DecidableEq α]
    {rels : List (List α × List α)} {p ret : List α} {fuel : Nat}
    (h : applyRelations rels p fuel = some ret) :
    ∀ r ∈ rels, findsublist ret r.1 < 0 := by
  unfold applyRelations at h
  suffices haux : ∀ fuel2 cur, applyRelationsAux rels p fuel2 cur = some ret →
      ∀ r ∈ rels, findsublist ret r.1 < 0 from haux fuel p h
  intro fuel2
  induction fuel2 with
  | zero =>
    intro cur hc
    rw [applyRelationsAux] at hc
    exact absurd hc (by simp)
  | succ fuel2 ih =>
    intro cur hc
    rw [applyRelationsAux] at hc
    cases hpass : relPass rels p cur with
    | mk r2 flag =>
      rw [hpass] at hc
      cases flag with
      | true => exact ih r2 (by simpa using hc)
      | false =>
        have hr2 : r2 = ret := by simpa using hc
        obtain ⟨hcur, hmatch⟩ := relPass_false hpass
        subst hr2
        rw [hcur]
        exact hmatch

theorem findsublist_neg_eq {α : Type _} [DecidableEq α] {hay nd : List α}
    (h : findsublist hay nd < 0) : findsublist hay nd = -1 := by
  by_cases hn : nd.length = 0
  · rw [findsublist, if_pos hn] at h
    omega
  · rw [findsublist, if_neg hn] at h ⊢
    rcases bmhLoop_nonneg_or hay nd (hay.length + 1) (nd.length - 1) with h2 | h2
    · exact h2
    · omega

/-- C2: whenever applyRelations terminates, the returned path contains no
stored relation pattern as a contiguous sub-sequence: the result is a
fixpoint of the rewriting loop. -/
theorem applyRelations_fixpoint_no_pattern {α : Type _} [DecidableEq α]
    {rels : List (List α × List α)} {p ret : List α} {fuel : Nat}
    (h : applyRelations rels p fuel = some ret) :
    ∀ r ∈ rels, ∀ q, ¬ occursAt ret r.1 q := by
  intro r hr q
  have hneg := applyRelations_noMatchResult h r hr
  by_cases hnil : r.1 = []
  · rw [hnil, findsublist] at hneg
    simp at hneg
  · exact findsublist_not_found hnil (findsublist_neg_eq hneg) q

/-- Witness for the fixpoint theorem: rewriting (0,1,2) by the single
relation (1,2) to (2,1) terminates with (2,1), which has no occurrence of
the pattern. -/
theorem applyRelations_fixpoint_no_pattern_witness :
    ¬ occursAt ([2, 1] : List ℕ) [1, 2] 0 :=
  @applyRelations_fixpoint_no_pattern ℕ _ [([1, 2], [2, 1])] [0, 1, 2] [2, 1] 5
    (by decide) ([1, 2], [2, 1]) (by decide) 0

/-- C9: normalization is idempotent: applying applyRelations to a path it
returned gives that path back unchanged. -/
theorem applyRelations_idem {α : Type _} [DecidableEq α]
    {rels : List (List α × List α)} {p ret : List α} {fuel : Nat}
    (h : applyRelations rels p fuel = some ret) :
    applyRelations rels ret fuel = some ret := by
  have hneg := applyRelations_noMatchResult h
  cases fuel with
  | zero =>
    rw [applyRelations, applyRelationsAux] at h
    exact absurd h (by simp)
  | succ f => exact applyRelationsAux_of_noMatch ret f hneg

/-- Witness for idempotence at a concrete input. -/
theorem applyRelations_idem_witness :
    applyRelations [([1, 2], [2, 1])] ([2, 1] : List ℕ) 5 = some [2, 1] :=
  @applyRelations_idem ℕ _ [([1, 2], [2, 1])] [0, 1, 2] [2, 1] 5 (by decide)

/-- C1: the rewriting step of applyRelations is not local.  For the path
(0,1,2) and the single relation (1,2) to (1,3), the pattern occurs at
position 1, a local replacement would give (0,1,3) keeping the prefix (0),
but the code rebuilds the path as the replacement followed by the suffix of
the original argument and returns (1,3), discarding the prefix.  The second
conjunct group shows the stale suffix: rewriting (1,2,3) by (1,2) to (9)
and then (9,3) to (7) should end in the one-vertex path (7), but the code
splices the suffix of the original argument after the second replacement
and returns (7,3). -/
theorem applyRelations_discards_context :
    (findsublist ([0, 1, 2] : List ℕ) [1, 2] = 1 ∧
      applyRelations [([1, 2], [1, 3])] ([0, 1, 2] : List ℕ) 5 = some [1, 3] ∧
      ([0, 1, 2] : List ℕ).take 1 ++ [1, 3] ++ ([0, 1, 2] : List ℕ).drop 3 = [0, 1, 3] ∧
      ([1, 3] : List ℕ) ≠ [0, 1, 3]) ∧
      (applyRelations [([1, 2], [9]), ([9, 3], [7])] ([1, 2, 3] : List ℕ) 5 =
          some [7, 3] ∧
        ([7, 3] : List ℕ) ≠ [7]) := by decide

end AR

namespace AR

/-- C3: on a quiver with the commutative flag set, countReducedPaths
collapses the reduced path count to 1 when at least one reduced path
exists and 0 otherwise; it never returns an integer greater than 1. -/
theorem countReducedPaths_commutative_collapse {V : Type _} [DecidableEq V]
    {q : Quiver V} {fuel : Nat} {s t : V} {red : List (List V)}
    (hc : q.comm = true) (h : listReducedPaths q fuel s t = some red) :
    ∃ n, countReducedPaths q fuel s t = some n ∧ n ≤ 1 ∧
      (n = 1 ↔ red ≠ []) ∧ (n = 0 ↔ red = []) := by
  refine ⟨if red.length = 0 then 0 else 1, ?_, ?_, ?_, ?_⟩
  · rw [countReducedPaths, h, hc]
    simp
  · by_cases hl : red.length = 0 <;> simp [hl]
  · by_cases hl : red.length = 0 <;>
      simp [hl, List.length_eq_zero.mp, ← List.length_eq_zero]
  · by_cases hl : red.length = 0 <;>
      simp [hl, ← List.length_eq_zero]

/-- Witness for the commutative collapse on a quiver with two distinct
reduced paths between the chosen vertices. -/
theorem countReducedPaths_commutative_collapse_witness :
    ∃ n, countReducedPaths
        (⟨⟨[1, 2, 3, 4], [(1, 2), (2, 4), (1, 3), (3, 4)]⟩, [], true⟩ : Quiver ℕ)
        6 1 4 = some n ∧ n ≤ 1 ∧
      (n = 1 ↔ ([[1, 2, 4], [1, 3, 4]] : List (List ℕ)) ≠ []) ∧
      (n = 0 ↔ ([[1, 2, 4], [1, 3, 4]] : List (List ℕ)) = []) :=
  @countReducedPaths_commutative_collapse ℕ _
    ⟨⟨[1, 2, 3, 4], [(1, 2), (2, 4), (1, 3), (3, 4)]⟩, [], true⟩
    6 1 4 [[1, 2, 4], [1, 3, 4]] rfl (by decide)

/-- C10: on a source quiver with an empty vertex set, the seed phase adds
nothing, and the unconditional removal of the zero dimension vector fails
because that vector was never added as a node; arQuiver signals the error
raised by remove_node instead of returning an AR quiver. -/
theorem arQuiver_empty_vertex_error :
    seed (⟨⟨[], []⟩, [], false⟩ : Quiver ℕ) 5 = some (⟨[], []⟩, []) ∧
      Graph.removeNode (⟨[], []⟩ : Graph (List Int))
        (zeros (⟨⟨[], []⟩, [], false⟩ : Quiver ℕ)) = none ∧
      arQuiver (⟨⟨[], []⟩, [], false⟩ : Quiver ℕ) 5 = ArOut.removeError := by
  decide

/-- C5 counterexample: a worklist state in which the candidate vector w
computed for the dequeued vector (0,1) is (7,-1): it has a component at
least 7 and also a negative component.  The negativity rule is tested
first in the code, so the builder does not return: it continues with the
queue and later adds a further edge, so the returned graph is strictly
larger than the graph built at the moment of the trigger. -/
theorem ruleC_preempted_by_negative_cex :
    (wvec
        ((⟨[[0, 1], [4, 0], [3, 0], [1, 0], [3, 2]],
            [([0, 1], [4, 0]), ([0, 1], [3, 0]), ([1, 0], [3, 2])]⟩ :
          Graph (List Int)).successors [0, 1]) [0, 1] = [7, -1]) ∧
      ([7, -1] : List Int).any (fun x => decide (7 ≤ x)) = true ∧
      arStep [] ⟨[[0, 1], [4, 0], [3, 0], [1, 0], [3, 2]],
          [([0, 1], [4, 0]), ([0, 1], [3, 0]), ([1, 0], [3, 2])]⟩ [0, 1] [[1, 0]] =
        Sum.inl (⟨[[0, 1], [4, 0], [3, 0], [1, 0], [3, 2]],
          [([0, 1], [4, 0]), ([0, 1], [3, 0]), ([1, 0], [3, 2])]⟩, [[1, 0]]) ∧
      arLoop [] 6 ⟨[[0, 1], [4, 0], [3, 0], [1, 0], [3, 2]],
          [([0, 1], [4, 0]), ([0, 1], [3, 0]), ([1, 0], [3, 2])]⟩
          [[0, 1], [1, 0]] =
        some ⟨[[0, 1], [4, 0], [3, 0], [1, 0], [3, 2], [2, 2]],
          [([0, 1], [4, 0]), ([0, 1], [3, 0]), ([1, 0], [3, 2]), ([3, 2], [2, 2])]⟩ ∧
      (⟨[[0, 1], [4, 0], [3, 0], [1, 0], [3, 2], [2, 2]],
          [([0, 1], [4, 0]), ([0, 1], [3, 0]), ([1, 0], [3, 2]), ([3, 2], [2, 2])]⟩ :
        Graph (List Int)) ≠
        ⟨[[0, 1], [4, 0], [3, 0], [1, 0], [3, 2]],
          [([0, 1], [4, 0]), ([0, 1], [3, 0]), ([1, 0], [3, 2])]⟩ := by
  decide

/-- C5 as amended: when the candidate vector for the dequeued vector has
no negative component and some component at least 7, the worklist loop
returns the AR quiver built so far immediately, with no further dequeuing,
edge addition or enqueuing. -/
theorem ruleC_immediate_return {injs : List (List Int)} {ar : Graph (List Int)}
    {p : List Int} {rest : List (List Int)} {fuel : Nat}
    (hA : ¬ (isSimple p ∧ p ∈ injs))
    (hneg : (wvec (ar.successors p) p).any (fun x => decide (x < 0)) = false)
    (hbig : (wvec (ar.successors p) p).any (fun x => decide (7 ≤ x)) = true) :
    arLoop injs (fuel + 1) ar (p :: rest) = some ar := by
  rw [arLoop]
  have hstep : arStep injs ar p rest = Sum.inr ar := by
    rw [arStep, if_neg hA]
    simp only [hneg, hbig]
    rfl
  rw [hstep]

/-- Witness for the immediate return of the threshold rule at a concrete
worklist state. -/
theorem ruleC_immediate_return_witness :
    arLoop [] (4 + 1) ⟨[[1, 0], [8, 0]], [([1, 0], [8, 0])]⟩ [[1, 0]] =
      some ⟨[[1, 0], [8, 0]], [([1, 0], [8, 0])]⟩ :=
  @ruleC_immediate_return [] ⟨[[1, 0], [8, 0]], [([1, 0], [8, 0])]⟩ [1, 0] [] 4
    (by decide) (by decide) (by decide)

end AR

namespace AR

theorem mem_of_mem_firstDedupAux {α : Type _} [DecidableEq α]
    {seen l : List α} {x : α} (h : x ∈ firstDedupAux seen l) : x ∈ l := by
  induction l generalizing seen with
  | nil => exact absurd h (by simp [firstDedupAux])
  | cons a l ih =>
    rw [firstDedupAux] at h
    by_cases ha : a ∈ seen
    · rw [if_pos ha] at h
      exact List.mem_cons_of_mem a (ih h)
    · rw [if_neg ha] at h
      rcases List.mem_cons.mp h with h | h
      · simp [h]
      · exact List.mem_cons_of_mem a (ih h)

theorem successors_mem_edges {V : Type _} [DecidableEq V] {g : Graph V} {v x : V}
    (h : x ∈ g.successors v) : (v, x) ∈ g.edges := by
  unfold Graph.successors firstDedup at h
  have h2 := mem_of_mem_firstDedupAux h
  rcases List.mem_map.mp h2 with ⟨e, he, hex⟩
  have he2 := List.mem_filter.mp he
  have hv : e.1 = v := by simpa using he2.2
  have he3 : e = (v, x) := by
    cases e
    simp only [Prod.mk.injEq]
    simp only at hv hex
    exact ⟨hv, hex⟩
  rw [← he3]
  exact he2.1

theorem mem_addNode {V : Type _} [DecidableEq V] {g : Graph V} {v x : V}
    (h : x ∈ (g.addNode v).nodes) : x ∈ g.nodes ∨ x = v := by
  unfold Graph.addNode at h
  by_cases hv : v ∈ g.nodes
  · rw [if_pos hv] at h
    exact Or.inl h
  · rw [if_neg hv] at h
    rcases List.mem_append.mp h with h | h
    · exact Or.inl h
    · right
      simpa using h

theorem addNode_edges {V : Type _} [DecidableEq V] (g : Graph V) (v : V) :
    (g.addNode v).edges = g.edges := by
  unfold Graph.addNode
  by_cases hv : v ∈ g.nodes
  · rw [if_pos hv]
  · rw [if_neg hv]

theorem mem_addEdge_nodes {V : Type _} [DecidableEq V] {g : Graph V} {u v x : V}
    (h : x ∈ (g.addEdge u v).nodes) : x ∈ g.nodes ∨ x = u ∨ x = v := by
  unfold Graph.addEdge at h
  simp only at h
  rcases mem_addNode h with h | h
  · rcases mem_addNode h with h | h
    · exact Or.inl h
    · exact Or.inr (Or.inl h)
  · exact Or.inr (Or.inr h)

theorem mem_addEdge_edges {V : Type _} [DecidableEq V] {g : Graph V} {u v : V}
    {e : V × V} (h : e ∈ (g.addEdge u v).edges) : e ∈ g.edges ∨ e = (u, v) := by
  unfold Graph.addEdge at h
  simp only at h
  rcases List.mem_append.mp h with h | h
  · exact Or.inl h
  · right
    simpa using h

theorem proj_indecomp_nonneg {V : Type _} [DecidableEq V] {q : Quiver V}
    {fuel : Nat} {v : V} {m : List Int}
    (h : proj_indecomp q fuel v = some m) : VNonneg m := by
  unfold proj_indecomp at h
  cases hm : mapO (fun w => countReducedPaths q fuel v w) q.nodes with
  | none =>
    rw [hm] at h
    exact absurd h (by simp)
  | some cs =>
    rw [hm] at h
    injection h with h
    subst h
    intro x hx
    rcases List.mem_map.mp hx with ⟨n, _, rfl⟩
    exact Int.ofNat_nonneg n

theorem inj_indecomp_nonneg {V : Type _} [DecidableEq V] {q : Quiver V}
    {fuel : Nat} {v : V} {m : List Int}
    (h : inj_indecomp q fuel v = some m) : VNonneg m := by
  unfold inj_indecomp at h
  cases hm : mapO (fun w => countReducedPaths q fuel w v) q.nodes with
  | none =>
    rw [hm] at h
    exact absurd h (by simp)
  | some cs =>
    rw [hm] at h
    injection h with h
    subst h
    intro x hx
    rcases List.mem_map.mp hx with ⟨n, _, rfl⟩
    exact Int.ofNat_nonneg n

theorem radical_proj_nonneg {V : Type _} [DecidableEq V] {q : Quiver V}
    {fuel : Nat} {v : V} {m : List Int}
    (h : radical_proj q fuel v = some m) : VNonneg m := by
  unfold radical_proj at h
  cases hp : proj_indecomp q fuel v with
  | none =>
    rw [hp] at h
    exact absurd h (by simp)
  | some pr =>
    rw [hp] at h
    injection h with h
    subst h
    intro x hx
    rcases List.mem_or_eq_of_mem_set hx with hx | rfl
    · exact proj_indecomp_nonneg hp x hx
    · exact le_refl 0

theorem any_lt_false_nonneg {w : List Int}
    (h : w.any (fun x => decide (x < 0)) = false) : VNonneg w := by
  intro x hx
  have h2 := List.any_eq_false.mp h x hx
  simp at h2
  exact h2

theorem foldl_arAdd_inv {w : List Int} (hw : VNonneg w) :
    ∀ (ss : List (List Int)) (st : Graph (List Int) × List (List Int)),
      (∀ s ∈ ss, VNonneg s) → stateNonneg st →
      stateNonneg (ss.foldl (arAdd w) st) := by
  intro ss
  induction ss with
  | nil => intro st _ h; exact h
  | cons s rest ih =>
    intro st hss hst
    rw [List.foldl]
    apply ih _ (fun s2 h2 => hss s2 (List.mem_cons_of_mem s h2))
    obtain ⟨h1, h2, h3⟩ := hst
    have hsV : VNonneg s := hss s (List.mem_cons_self s rest)
    refine ⟨?_, ?_, ?_⟩
    · intro x hx
      rcases mem_addEdge_nodes hx with hx | hx | hx
      · exact h1 x hx
      · subst hx; exact hsV
      · subst hx; exact hw
    · intro e he
      rcases mem_addEdge_edges he with he | he
      · exact h2 e he
      · subst he; exact ⟨hsV, hw⟩
    · intro x hx
      simp only [arAdd] at hx
      by_cases hmem : s ∈ st.2
      · rw [if_pos hmem] at hx
        exact h3 x hx
      · rw [if_neg hmem] at hx
        rcases List.mem_append.mp hx with hx | hx
        · exact h3 x hx
        · have : x = s := by simpa using hx
          subst this
          exact hsV

theorem arStep_inv {injs : List (List Int)} {ar : Graph (List Int)}
    {p : List Int} {rest : List (List Int)}
    (hst : stateNonneg (ar, p :: rest)) :
    ∀ st2, arStep injs ar p rest = Sum.inl st2 → stateNonneg st2 := by
  intro st2 h
  obtain ⟨h1, h2, h3⟩ := hst
  have hrest : ∀ v ∈ rest, VNonneg v :=
    fun v hv => h3 v (List.mem_cons_of_mem p hv)
  simp only [arStep] at h
  by_cases hA : isSimple p ∧ p ∈ injs
  · rw [if_pos hA] at h
    injection h with h
    subst h
    exact ⟨h1, h2, hrest⟩
  · rw [if_neg hA] at h
    by_cases hB : (wvec (ar.successors p) p).any (fun x => decide (x < 0)) = true
    · rw [if_pos hB] at h
      injection h with h
      subst h
      exact ⟨h1, h2, hrest⟩
    · rw [if_neg hB] at h
      by_cases hC : (wvec (ar.successors p) p).any (fun x => decide (7 ≤ x)) = true
      · rw [if_pos hC] at h
        exact absurd h (by simp)
      · rw [if_neg hC] at h
        injection h with h
        subst h
        have hB2 : (wvec (ar.successors p) p).any (fun x => decide (x < 0)) = false := by
          cases hh : (wvec (ar.successors p) p).any (fun x => decide (x < 0)) with
          | true => exact absurd hh hB
          | false => rfl
        apply foldl_arAdd_inv (any_lt_false_nonneg hB2)
        · intro s hs
          exact (h2 (p, s) (successors_mem_edges hs)).2
        · exact ⟨h1, h2, hrest⟩

theorem arIter_inv {injs : List (List Int)} :
    ∀ (k : Nat) (st st2 : Graph (List Int) × List (List Int)),
      stateNonneg st → arIter injs k st = some st2 → stateNonneg st2 := by
  intro k
  induction k with
  | zero =>
    intro st st2 h hit
    rw [arIter] at hit
    injection hit with hit
    subst hit
    exact h
  | succ k ih =>
    intro st st2 h hit
    rw [arIter] at hit
    cases hst2 : st.2 with
    | nil =>
      simp only [hst2] at hit
      exact absurd hit (by simp)
    | cons p rest =>
      simp only [hst2] at hit
      cases harstep : arStep injs st.1 p rest with
      | inl stc =>
        simp only [harstep] at hit
        refine ih _ _ ?_ hit
        refine arStep_inv ?_ _ harstep
        obtain ⟨h1, h2, h3⟩ := h
        rw [hst2] at h3
        exact ⟨h1, h2, h3⟩
      | inr g =>
        simp only [harstep] at hit
        exact absurd hit (by simp)

theorem seedStep_inv {V : Type _} [DecidableEq V] {q : Quiver V} {fuel : Nat}
    {v : V} {st st2 : Graph (List Int) × List (List Int)}
    (h : seedStep q fuel st v = some st2) (hst : stateNonneg st) :
    stateNonneg st2 := by
  unfold seedStep at h
  cases hr : radical_proj q fuel v with
  | none => rw [hr] at h; exact absurd h (by simp)
  | some r =>
    rw [hr] at h
    cases hp : proj_indecomp q fuel v with
    | none => rw [hp] at h; exact absurd h (by simp)
    | some pr =>
      rw [hp] at h
      cases hi : inj_indecomp q fuel v with
      | none => rw [hi] at h; exact absurd h (by simp)
      | some i =>
        rw [hi] at h
        injection h with h
        subst h
        obtain ⟨h1, h2, h3⟩ := hst
        have hrV := radical_proj_nonneg hr
        have hpV := proj_indecomp_nonneg hp
        have hiV := inj_indecomp_nonneg hi
        refine ⟨?_, ?_, ?_⟩
        · intro x hx
          rcases mem_addNode hx with hx | hx
          · rcases mem_addEdge_nodes hx with hx | hx | hx
            · exact h1 x hx
            · subst hx; exact hrV
            · subst hx; exact hpV
          · subst hx; exact hiV
        · intro e he
          rw [addNode_edges] at he
          rcases mem_addEdge_edges he with he | he
          · exact h2 e he
          · subst he; exact ⟨hrV, hpV⟩
        · intro x hx
          by_cases hsimp : isSimple pr
          · rw [if_pos hsimp] at hx
            rcases List.mem_append.mp hx with hx | hx
            · exact h3 x hx
            · have : x = pr := by simpa using hx
              subst this
              exact hpV
          · rw [if_neg hsimp] at hx
            exact h3 x hx

theorem seed_inv {V : Type _} [DecidableEq V] {q : Quiver V} {fuel : Nat}
    {st : Graph (List Int) × List (List Int)}
    (h : seed q fuel = some st) : stateNonneg st := by
  have hbase : stateNonneg ((⟨[], []⟩ : Graph (List Int)), ([] : List (List Int))) := by
    refine ⟨?_, ?_, ?_⟩ <;> intro x hx <;> simp at hx
  unfold seed at h
  revert h
  suffices haux : ∀ (l : List V) (st0 : Graph (List Int) × List (List Int)),
      stateNonneg st0 → foldO (seedStep q fuel) st0 l = some st → stateNonneg st by
    intro h
    exact haux q.nodes _ hbase h
  intro l
  induction l with
  | nil =>
    intro st0 h0 hf
    rw [foldO] at hf
    injection hf with hf
    subst hf
    exact h0
  | cons v l ih =>
    intro st0 h0 hf
    rw [foldO] at hf
    cases hs : seedStep q fuel st0 v with
    | none => rw [hs] at hf; exact absurd hf (by simp)
    | some st1 =>
      rw [hs] at hf
      exact ih st1 (seedStep_inv hs h0) hf

theorem removeNode_inv {g g2 : Graph (List Int)} {v : List Int}
    (h : g.removeNode v = some g2)
    (h1 : ∀ x ∈ g.nodes, VNonneg x)
    (h2 : ∀ e ∈ g.edges, VNonneg e.1 ∧ VNonneg e.2) :
    (∀ x ∈ g2.nodes, VNonneg x) ∧ (∀ e ∈ g2.edges, VNonneg e.1 ∧ VNonneg e.2) := by
  rw [Graph.removeNode] at h
  by_cases hv : v ∈ g.nodes
  · rw [if_pos hv] at h
    injection h with h
    subst h
    constructor
    · intro x hx
      exact h1 x (List.mem_of_mem_filter hx)
    · intro e he
      exact h2 e (List.mem_of_mem_filter he)
  · rw [if_neg hv] at h
    exact absurd h (by simp)

/-- C8: every dimension vector that the builder ever enqueues has all
components non-negative: the seed phase enqueues simple projectives
computed from path counts, and the worklist phase only enqueues successor
nodes, whose components were non-negative when they were added. -/
theorem arQuiver_enqueued_nonneg {V : Type _} [DecidableEq V] {q : Quiver V}
    {fuel k : Nat} {ar0 ar1 : Graph (List Int)} {todo0 : List (List Int)}
    {injs : List (List Int)} {st : Graph (List Int) × List (List Int)}
    (hs : seed q fuel = some (ar0, todo0))
    (hr : ar0.removeNode (zeros q) = some ar1)
    (hi : arIter injs k (ar1, todo0) = some st) :
    ∀ v ∈ st.2, VNonneg v := by
  obtain ⟨h1, h2, h3⟩ := seed_inv hs
  obtain ⟨h1b, h2b⟩ := removeNode_inv hr h1 h2
  exact (arIter_inv k (ar1, todo0) st ⟨h1b, h2b, h3⟩ hi).2.2

/-- Witness for the non-negativity of enqueued vectors after one worklist
step on the two-vertex quiver with a single arrow. -/
theorem arQuiver_enqueued_nonneg_witness : VNonneg [1, 1] :=
  @arQuiver_enqueued_nonneg ℕ _ ⟨⟨[1, 2], [(1, 2)]⟩, [], false⟩ 6 1
    ⟨[[0, 1], [1, 1], [1, 0], [0, 0]], [([0, 1], [1, 1]), ([0, 0], [0, 1])]⟩
    ⟨[[0, 1], [1, 1], [1, 0]], [([0, 1], [1, 1])]⟩
    [[0, 1]] [[1, 0], [1, 1]]
    (⟨[[0, 1], [1, 1], [1, 0]], [([0, 1], [1, 1]), ([1, 1], [1, 0])]⟩, [[1, 1]])
    (by decide) (by decide) (by decide) [1, 1] (by decide)

end AR

namespace AR

theorem mem_firstDedupAux_iff {α : Type _} [DecidableEq α] :
    ∀ (seen l : List α) (x : α),
      x ∈ firstDedupAux seen l ↔ (x ∈ l ∧ x ∉ seen) := by
  intro seen l
  induction l generalizing seen with
  | nil => intro x; simp [firstDedupAux]
  | cons a l ih =>
    intro x
    rw [firstDedupAux]
    by_cases ha : a ∈ seen
    · rw [if_pos ha, ih]
      constructor
      · rintro ⟨h1, h2⟩
        exact ⟨List.mem_cons_of_mem a h1, h2⟩
      · rintro ⟨h1, h2⟩
        rcases List.mem_cons.mp h1 with h1 | h1
        · subst h1; exact absurd ha h2
        · exact ⟨h1, h2⟩
    · rw [if_neg ha]
      constructor
      · intro h
        rcases List.mem_cons.mp h with h | h
        · subst h; exact ⟨List.mem_cons_self _ _, ha⟩
        · have h2 := (ih (seen ++ [a]) x).mp h
          refine ⟨List.mem_cons_of_mem a h2.1, fun hx => h2.2 ?_⟩
          exact List.mem_append.mpr (Or.inl hx)
      · rintro ⟨h1, h2⟩
        rcases List.mem_cons.mp h1 with h1 | h1
        · subst h1; exact List.mem_cons_self _ _
        · by_cases hxa : x = a
          · subst hxa; exact List.mem_cons_self _ _
          · refine List.mem_cons_of_mem a ((ih (seen ++ [a]) x).mpr ⟨h1, ?_⟩)
            intro hx
            rcases List.mem_append.mp hx with hx | hx
            · exact h2 hx
            · exact hxa (by simpa using hx)

theorem firstDedupAux_nodup {α : Type _} [DecidableEq α] :
    ∀ (seen l : List α), (firstDedupAux seen l).Nodup := by
  intro seen l
  induction l generalizing seen with
  | nil => exact List.nodup_nil
  | cons a l ih =>
    rw [firstDedupAux]
    by_cases ha : a ∈ seen
    · rw [if_pos ha]; exact ih seen
    · rw [if_neg ha]
      refine List.nodup_cons.mpr ⟨?_, ih (seen ++ [a])⟩
      intro hmem
      have := (mem_firstDedupAux_iff (seen ++ [a]) l a).mp hmem
      exact this.2 (List.mem_append.mpr (Or.inr (by simp)))

theorem firstDedup_eq_self_of_nodup {α : Type _} [DecidableEq α] {l : List α}
    (h : l.Nodup) : firstDedup l = l := by
  unfold firstDedup
  suffices haux : ∀ (l2 : List α) (seen : List α), l2.Nodup →
      (∀ x ∈ l2, x ∉ seen) → firstDedupAux seen l2 = l2 from
    haux l [] h (by simp)
  intro l2
  induction l2 with
  | nil => intro seen _ _; rfl
  | cons a l2 ih =>
    intro seen hnd hdisj
    rw [firstDedupAux, if_neg (hdisj a (List.mem_cons_self a l2))]
    congr 1
    refine ih (seen ++ [a]) (List.nodup_cons.mp hnd).2 ?_
    intro x hx hmem
    rcases List.mem_append.mp hmem with hmem | hmem
    · exact hdisj x (List.mem_cons_of_mem a hx) hmem
    · have hxa : x = a := by simpa using hmem
      subst hxa
      exact (List.nodup_cons.mp hnd).1 hx

theorem mem_successors_iff {V : Type _} [DecidableEq V] (g : Graph V) (v x : V) :
    x ∈ g.successors v ↔ (v, x) ∈ g.edges := by
  constructor
  · exact successors_mem_edges
  · intro h
    unfold Graph.successors firstDedup
    rw [mem_firstDedupAux_iff]
    refine ⟨?_, by simp⟩
    refine List.mem_map.mpr ⟨(v, x), ?_, rfl⟩
    refine List.mem_filter.mpr ⟨h, by simp⟩

theorem successors_nodup {V : Type _} [DecidableEq V] (g : Graph V) (v : V) :
    (g.successors v).Nodup :=
  firstDedupAux_nodup [] _

theorem mapO_some_mem {α β : Type _} {f : α → Option β} :
    ∀ {l : List α} {ys : List β}, mapO f l = some ys →
      ∀ y ∈ ys, ∃ a ∈ l, f a = some y := by
  intro l
  induction l with
  | nil =>
    intro ys h y hy
    rw [mapO] at h
    injection h with h
    subst h
    exact absurd hy (by simp)
  | cons a l ih =>
    intro ys h y hy
    rw [mapO] at h
    cases hfa : f a with
    | none => rw [hfa] at h; exact absurd h (by simp)
    | some b =>
      rw [hfa] at h
      cases hml : mapO f l with
      | none => rw [hml] at h; exact absurd h (by simp)
      | some bs =>
        rw [hml] at h
        injection h with h
        subst h
        rcases List.mem_cons.mp hy with hy | hy
        · subst hy; exact ⟨a, List.mem_cons_self a l, hfa⟩
        · obtain ⟨a2, ha2, hfa2⟩ := ih hml y hy
          exact ⟨a2, List.mem_cons_of_mem a ha2, hfa2⟩

theorem mapO_mem_some {α β : Type _} {f : α → Option β} :
    ∀ {l : List α} {ys : List β}, mapO f l = some ys →
      ∀ a ∈ l, ∃ y ∈ ys, f a = some y := by
  intro l
  induction l with
  | nil =>
    intro ys h a ha
    exact absurd ha (by simp)
  | cons a0 l ih =>
    intro ys h a ha
    rw [mapO] at h
    cases hfa : f a0 with
    | none => rw [hfa] at h; exact absurd h (by simp)
    | some b =>
      rw [hfa] at h
      cases hml : mapO f l with
      | none => rw [hml] at h; exact absurd h (by simp)
      | some bs =>
        rw [hml] at h
        injection h with h
        subst h
        rcases List.mem_cons.mp ha with ha | ha
        · subst ha; exact ⟨b, List.mem_cons_self b bs, hfa⟩
        · obtain ⟨y, hy, hfy⟩ := ih hml a ha
          exact ⟨y, List.mem_cons_of_mem b hy, hfy⟩

theorem mapO_id_of {α : Type _} {f : α → Option α} :
    ∀ {l : List α}, (∀ a ∈ l, f a = some a) → mapO f l = some l := by
  intro l
  induction l with
  | nil => intro _; rfl
  | cons a l ih =>
    intro h
    rw [mapO, h a (List.mem_cons_self a l),
      ih (fun a2 ha2 => h a2 (List.mem_cons_of_mem a ha2))]

theorem applyRelations_nil_succ {α : Type _} [DecidableEq α] (p : List α)
    (fuel : Nat) : applyRelations ([] : List (List α × List α)) p (fuel + 1) = some p :=
  rfl

end AR

namespace AR

theorem listPaths_isWalk {V : Type _} [DecidableEq V] {g : Graph V} :
    ∀ {fuel : Nat} {s t : V} {ps : List (List V)},
      listPaths g fuel s t = some ps → ∀ l ∈ ps, isWalk g l s t := by
  intro fuel
  induction fuel with
  | zero =>
    intro s t ps hp
    rw [listPaths] at hp
    exact absurd hp (by simp)
  | succ fuel ih =>
    intro s t ps hp l hl
    rw [listPaths] at hp
    by_cases hst : s = t
    · subst hst
      rw [if_pos rfl] at hp
      injection hp with hp
      subst hp
      have hls : l = [s] := by simpa using hl
      subst hls
      exact ⟨rfl, rfl, List.chain'_singleton s⟩
    · rw [if_neg hst] at hp
      cases hmap : mapO (fun u => listPaths g fuel u t) (g.successors s) with
      | none => rw [hmap] at hp; exact absurd hp (by simp)
      | some groups =>
        rw [hmap] at hp
        injection hp with hp
        subst hp
        rcases List.mem_flatten.mp hl with ⟨gl, hgl, hlgl⟩
        rcases List.mem_map.mp hgl with ⟨grp, hgrp, rfl⟩
        rcases List.mem_map.mp hlgl with ⟨pth, hpth, rfl⟩
        obtain ⟨u, hu, hfu⟩ := mapO_some_mem hmap grp hgrp
        have hw := ih hfu pth hpth
        obtain ⟨hw1, hw2, hw3⟩ := hw
        cases pth with
        | nil => exact absurd hw1 (by simp)
        | cons u2 pth2 =>
          have hu2 : u2 = u := by simpa using hw1
          subst hu2
          refine ⟨rfl, ?_, ?_⟩
          · rw [List.getLast?_cons_cons]
            exact hw2
          · refine List.chain'_cons.mpr ⟨?_, hw3⟩
            exact (mem_successors_iff g s u2).mp hu

theorem listPaths_complete {V : Type _} [DecidableEq V] {g : Graph V}
    (hacy : acyclicG g) :
    ∀ {fuel : Nat} {s t : V} {ps : List (List V)},
      listPaths g fuel s t = some ps → ∀ l, isWalk g l s t → l ∈ ps := by
  intro fuel
  induction fuel with
  | zero =>
    intro s t ps hp
    rw [listPaths] at hp
    exact absurd hp (by simp)
  | succ fuel ih =>
    intro s t ps hp l hw
    rw [listPaths] at hp
    by_cases hst : s = t
    · subst hst
      rw [if_pos rfl] at hp
      injection hp with hp
      subst hp
      have := hacy l s hw
      subst this
      simp
    · rw [if_neg hst] at hp
      cases hmap : mapO (fun u => listPaths g fuel u t) (g.successors s) with
      | none => rw [hmap] at hp; exact absurd hp (by simp)
      | some groups =>
        rw [hmap] at hp
        injection hp with hp
        subst hp
        obtain ⟨hw1, hw2, hw3⟩ := hw
        cases l with
        | nil => exact absurd hw1 (by simp)
        | cons s2 l2 =>
          have hs2 : s2 = s := by simpa using hw1
          subst hs2
          cases l2 with
          | nil =>
            exfalso
            apply hst
            simpa using hw2
          | cons u l3 =>
            have hedge : (s2, u) ∈ g.edges := (List.chain'_cons.mp hw3).1
            have husucc : u ∈ g.successors s2 := (mem_successors_iff g s2 u).mpr hedge
            obtain ⟨grp, hgrp, hfu⟩ := mapO_mem_some hmap u husucc
            have hwu : isWalk g (u :: l3) u t := by
              refine ⟨rfl, ?_, (List.chain'_cons.mp hw3).2⟩
              rw [List.getLast?_cons_cons] at hw2
              exact hw2
            have hmem := ih hfu (u :: l3) hwu
            refine List.mem_flatten.mpr ⟨grp.map (fun pth => s2 :: pth), ?_, ?_⟩
            · exact List.mem_map.mpr ⟨grp, hgrp, rfl⟩
            · exact List.mem_map.mpr ⟨u :: l3, hmem, rfl⟩

theorem listPaths_head {V : Type _} [DecidableEq V] {g : Graph V}
    {fuel : Nat} {s t : V} {ps : List (List V)}
    (hp : listPaths g fuel s t = some ps) :
    ∀ l ∈ ps, l.head? = some s :=
  fun l hl => (listPaths_isWalk hp l hl).1

theorem listPaths_nodup {V : Type _} [DecidableEq V] {g : Graph V} :
    ∀ {fuel : Nat} {s t : V} {ps : List (List V)},
      listPaths g fuel s t = some ps → ps.Nodup := by
  intro fuel
  induction fuel with
  | zero =>
    intro s t ps hp
    rw [listPaths] at hp
    exact absurd hp (by simp)
  | succ fuel ih =>
    intro s t ps hp
    rw [listPaths] at hp
    by_cases hst : s = t
    · subst hst
      rw [if_pos rfl] at hp
      injection hp with hp
      subst hp
      simp
    · rw [if_neg hst] at hp
      cases hmap : mapO (fun u => listPaths g fuel u t) (g.successors s) with
      | none => rw [hmap] at hp; exact absurd hp (by simp)
      | some groups =>
        rw [hmap] at hp
        injection hp with hp
        subst hp
        rw [List.nodup_flatten]
        constructor
        · intro gl hgl
          rcases List.mem_map.mp hgl with ⟨grp, hgrp, rfl⟩
          obtain ⟨u, _, hfu⟩ := mapO_some_mem hmap grp hgrp
          refine List.Nodup.map ?_ (ih hfu)
          intro a b hab
          injection hab
        · have hnd := successors_nodup g s
          revert hmap hnd
          generalize hus : g.successors s = us
          intro hmap hnd
          clear hus
          induction us generalizing groups with
          | nil =>
            rw [mapO] at hmap
            injection hmap with hmap
            subst hmap
            simp
          | cons u us ihu =>
            rw [mapO] at hmap
            cases hfu : listPaths g fuel u t with
            | none => rw [hfu] at hmap; exact absurd hmap (by simp)
            | some grp =>
              rw [hfu] at hmap
              cases hrest : mapO (fun u2 => listPaths g fuel u2 t) us with
              | none => rw [hrest] at hmap; exact absurd hmap (by simp)
              | some grest =>
                rw [hrest] at hmap
                injection hmap with hmap
                subst hmap
                rw [List.map_cons, List.pairwise_cons]
                constructor
                · intro gl hgl l hl1 hl2
                  rcases List.mem_map.mp hgl with ⟨grp2, hgrp2, rfl⟩
                  obtain ⟨u2, hu2, hfu2⟩ := mapO_some_mem hrest grp2 hgrp2
                  rcases List.mem_map.mp hl1 with ⟨pth1, hpth1, rfl⟩
                  rcases List.mem_map.mp hl2 with ⟨pth2, hpth2, heq⟩
                  have hpq : pth2 = pth1 := by injection heq
                  subst hpq
                  have hh1 := listPaths_head hfu pth2 hpth1
                  have hh2 := listPaths_head hfu2 pth2 hpth2
                  rw [hh1] at hh2
                  injection hh2 with hh2
                  subst hh2
                  exact (List.nodup_cons.mp hnd).1 hu2
                · exact ihu grest hrest (List.nodup_cons.mp hnd).2

end AR

namespace AR

/-- C6 as amended: on an acyclic quiver with an empty relation set and the
commutative flag unset, countReducedPaths equals the number of distinct
directed walks counted as vertex sequences: the enumeration lists each
such walk exactly once, and parallel edges do not give distinct walks. -/
theorem countReducedPaths_counts_vertex_walks {V : Type _} [DecidableEq V]
    {q : Quiver V} {fuel : Nat} {s t : V} {ps : List (List V)}
    (hrel : q.rel = []) (hcomm : q.comm = false) (hacy : acyclicG q.toGraph)
    (hp : listPaths q.toGraph fuel s t = some ps) :
    countReducedPaths q fuel s t = some ps.length ∧ ps.Nodup ∧
      ∀ l, l ∈ ps ↔ isWalk q.toGraph l s t := by
  have hnd := listPaths_nodup hp
  refine ⟨?_, hnd, fun l =>
    ⟨fun hl => listPaths_isWalk hp l hl, fun hw => listPaths_complete hacy hp l hw⟩⟩
  cases fuel with
  | zero =>
    rw [listPaths] at hp
    exact absurd hp (by simp)
  | succ f =>
    have hmap : mapO (fun pth => applyRelations q.rel pth (f + 1)) ps = some ps := by
      rw [hrel]
      exact mapO_id_of (fun a _ => applyRelations_nil_succ a f)
    rw [countReducedPaths, listReducedPaths, hp]
    simp only [hmap, hcomm]
    rw [firstDedup_eq_self_of_nodup hnd]
    simp

/-- C6 counterexample: a quiver with two parallel edges from 1 to 2 has two
directed walks from 1 to 2 in the multigraph sense, but the enumeration
goes through distinct successors only, so countReducedPaths reports 1.
The second group shows the commutative flag also breaks the claimed
equality: the acyclic relation-free diamond quiver with the flag set has
two directed walks from 1 to 4 but countReducedPaths collapses them to 1. -/
theorem countReducedPaths_parallel_edges_cex :
    (countReducedPaths (⟨⟨[1, 2], [(1, 2), (1, 2)]⟩, [], false⟩ : Quiver ℕ) 5 1 2 =
        some 1 ∧
      specWalkCount (⟨[1, 2], [(1, 2), (1, 2)]⟩ : Graph ℕ) 5 1 2 = some 2 ∧
      (1 : ℕ) ≠ 2) ∧
      (countReducedPaths
          (⟨⟨[1, 2, 3, 4], [(1, 2), (2, 4), (1, 3), (3, 4)]⟩, [], true⟩ : Quiver ℕ)
          6 1 4 = some 1 ∧
        specWalkCount
          (⟨[1, 2, 3, 4], [(1, 2), (2, 4), (1, 3), (3, 4)]⟩ : Graph ℕ) 6 1 4 =
          some 2) := by
  decide

theorem acyclic_one_vertex : acyclicG (⟨[1], []⟩ : Graph ℕ) := by
  intro l s hw
  obtain ⟨h1, h2, h3⟩ := hw
  cases l with
  | nil => exact absurd h1 (by simp)
  | cons a l2 =>
    cases l2 with
    | nil =>
      have : a = s := by simpa using h1
      rw [this]
    | cons b l3 =>
      have hedge := (List.chain'_cons.mp h3).1
      exact absurd hedge (by simp)

/-- Witness for the amended walk-counting theorem on the one-vertex quiver. -/
theorem countReducedPaths_counts_vertex_walks_witness :
    countReducedPaths (⟨⟨[1], []⟩, [], false⟩ : Quiver ℕ) 3 1 1 = some 1 :=
  (@countReducedPaths_counts_vertex_walks ℕ _ ⟨⟨[1], []⟩, [], false⟩ 3 1 1 [[1]]
    rfl rfl acyclic_one_vertex (by decide)).1

end AR

namespace AR

/-- The states produced by arIter are the intermediate states of the
worklist loop: after k continuing iterations, running the loop is the same
as running it from the reached state with k fewer units of fuel. -/
theorem arLoop_arIter (injs : List (List Int)) :
    ∀ (k : Nat) (st st2 : Graph (List Int) × List (List Int)) (fuel : Nat),
      arIter injs k st = some st2 →
      arLoop injs (k + fuel) st.1 st.2 = arLoop injs fuel st2.1 st2.2 := by
  intro k
  induction k with
  | zero =>
    intro st st2 fuel hit
    rw [arIter] at hit
    injection hit with hit
    subst hit
    rw [Nat.zero_add]
  | succ k ih =>
    intro st st2 fuel hit
    rw [arIter] at hit
    cases hst2 : st.2 with
    | nil =>
      simp only [hst2] at hit
      exact absurd hit (by simp)
    | cons p rest =>
      simp only [hst2] at hit
      cases harstep : arStep injs st.1 p rest with
      | inl stc =>
        simp only [harstep] at hit
        have hk : k + 1 + fuel = (k + fuel) + 1 := by omega
        rw [hk]
        simp only [arLoop, harstep]
        exact ih stc st2 fuel hit
      | inr g =>
        simp only [harstep] at hit
        exact absurd hit (by simp)

end AR
